import Mathlib

set_option maxRecDepth 100000

/-!
Verification of the range-partitioning and admission-control core of the
`cluster_parallel_query` driver.

The embedding models:
* `iter_id_ranges` / `count_lines` — the streaming range partitioner
  (`iter_id_ranges` in `cluster_parallel_query.py`): an identifier file is a
  header plus a list of first-column id strings; the generator is the
  tail-recursive `iterLoop` carrying the Python loop state
  (`first_id`, `count`, last row seen).
* `limit_jobs_round` / `limitJobsLoop` — one polling round, and the polling
  loop, of the `limit_jobs` admission gate; external probes (`squeue`
  membership and `free_connections_exceed`) are environment oracles.
* `parseJobHandle` / `submitLoop` / `submit_subgroup_jobs` — the driver loop,
  including the hardcoded `idx < 5556` resume filter and the parsing of the
  scheduler's submission response (`stdout.strip().split()[-1]`; `none`
  models the `IndexError` raised when there is no token).
-/

/-- Python truthiness of the `first_id` variable: `None` and `""` are falsy. -/
def pyTruthy : Option String → Bool
  | none => false
  | some s => !(s == "")

/-- `chunk_size = (total_lines + num_subgroups - 1) // num_subgroups` from the source. -/
def chunk_size (total_lines num_subgroups : Nat) : Nat :=
  (total_lines + num_subgroups - 1) / num_subgroups

/-- The `for row in reader` loop of `iter_id_ranges`, carrying the loop state:
remaining rows, `first_id` (`none` = Python `None`), `count`, and the most
recently seen row (needed by the final `yield first_id, row[0]`). -/
def iterLoop (chunkSize : Nat) :
    List String → Option String → Nat → Option String → List (String × String)
  | [], firstId, _, lastRow =>
      if pyTruthy firstId then [(firstId.getD "", lastRow.getD "")] else []
  | r :: rs, firstId, count, _ =>
      let f := if pyTruthy firstId then firstId else some r
      let c := count + 1
      if c = chunkSize then
        (f.getD "", r) :: iterLoop chunkSize rs none 0 (some r)
      else
        iterLoop chunkSize rs f c (some r)

/-- An identifier file: one header line plus the first-column id of every data row. -/
structure IdFile where
  header : String
  rows : List String

/-- `count_lines`: `wc -l` output (header plus data rows) minus one for the header. -/
def count_lines (f : IdFile) : Nat :=
  (1 + f.rows.length) - 1

/-- `iter_id_ranges(file_path, num_subgroups)`: the yielded `(min_id, max_id)` pairs. -/
def iter_id_ranges (f : IdFile) (num_subgroups : Nat) : List (String × String) :=
  iterLoop (chunk_size (count_lines f) num_subgroups) f.rows none 0 none

/-- Specification-side chunking: split a list into consecutive blocks of
`cs` elements (last block possibly shorter). -/
def chunksOf (cs : Nat) (l : List String) : List (List String) :=
  if h : l = [] ∨ cs = 0 then [] else l.take cs :: chunksOf cs (l.drop cs)
termination_by l.length
decreasing_by
  simp only [List.length_drop]
  rw [not_or] at h
  have := List.length_pos.mpr h.1
  omega

/-- The boundary pair of one chunk: its first and its last id. -/
def chunkBoundary (c : List String) : String × String :=
  (c.headD "", c.getLastD "")

theorem chunksOf_nil (cs : Nat) : chunksOf cs [] = [] := by
  rw [chunksOf]; simp

theorem chunksOf_cons (cs : Nat) (l : List String) (hl : l ≠ []) (hcs : cs ≠ 0) :
    chunksOf cs l = l.take cs :: chunksOf cs (l.drop cs) := by
  rw [chunksOf]; simp [hl, hcs]

theorem chunksOf_flatten (cs : Nat) (hcs : 1 ≤ cs) (l : List String) :
    (chunksOf cs l).flatten = l := by
  induction l using chunksOf.induct cs with
  | case1 l h =>
      rcases h with h | h
      · subst h; rw [chunksOf_nil]; rfl
      · omega
  | case2 l h ih =>
      rw [not_or] at h
      rw [chunksOf_cons cs l h.1 h.2, List.flatten_cons, ih, List.take_append_drop]

theorem mem_chunksOf (cs : Nat) (hcs : 1 ≤ cs) (l : List String) (c : List String)
    (hc : c ∈ chunksOf cs l) : c ≠ [] ∧ 1 ≤ c.length ∧ c.length ≤ cs := by
  induction l using chunksOf.induct cs with
  | case1 l h =>
      rcases h with h | h
      · subst h; rw [chunksOf_nil] at hc; cases hc
      · omega
  | case2 l h ih =>
      rw [not_or] at h
      rw [chunksOf_cons cs l h.1 h.2, List.mem_cons] at hc
      rcases hc with hc | hc
      · subst hc
        have hlen := List.length_pos.mpr h.1
        have hpos : 0 < (l.take cs).length := by
          simp only [List.length_take]
          omega
        refine ⟨List.length_pos.mp hpos, ?_⟩
        simp only [List.length_take]
        omega
      · exact ih hc

theorem chunksOf_dropLast_length (cs : Nat) (hcs : 1 ≤ cs) (l : List String)
    (c : List String) (hc : c ∈ (chunksOf cs l).dropLast) : c.length = cs := by
  induction l using chunksOf.induct cs with
  | case1 l h =>
      rcases h with h | h
      · subst h; rw [chunksOf_nil] at hc; cases hc
      · omega
  | case2 l h ih =>
      rw [not_or] at h
      rw [chunksOf_cons cs l h.1 h.2] at hc
      by_cases hrest : chunksOf cs (l.drop cs) = []
      · rw [hrest] at hc; cases hc
      · rw [List.dropLast_cons_of_ne_nil hrest, List.mem_cons] at hc
        rcases hc with hc | hc
        · subst hc
          have hdrop : l.drop cs ≠ [] := by
            intro hd
            rw [chunksOf, dif_pos (Or.inl hd)] at hrest
            exact hrest rfl
          have : cs < l.length := by
            by_contra hcon
            exact hdrop (List.drop_eq_nil_of_le (le_of_not_lt hcon))
          simp only [List.length_take]
          omega
        · exact ih hc

theorem chunksOf_length (cs : Nat) (hcs : 1 ≤ cs) (l : List String) :
    (chunksOf cs l).length = (l.length + cs - 1) / cs := by
  induction l using chunksOf.induct cs with
  | case1 l h =>
      rcases h with h | h
      · subst h
        rw [chunksOf_nil]
        have hlt : cs - 1 < cs := by omega
        simp [Nat.div_eq_of_lt hlt]
      · omega
  | case2 l h ih =>
      rw [not_or] at h
      have hlen := List.length_pos.mpr h.1
      rw [chunksOf_cons cs l h.1 h.2, List.length_cons, ih, List.length_drop]
      by_cases hle : l.length ≤ cs
      · have h1 : l.length - cs = 0 := by omega
        rw [h1]
        have h2 : (0 : Nat) + cs - 1 < cs := by omega
        rw [Nat.div_eq_of_lt h2]
        have h3 : l.length + cs - 1 = (l.length - 1) + cs := by omega
        rw [h3, Nat.add_div_right _ hcs]
        have h4 : l.length - 1 < cs := by omega
        rw [Nat.div_eq_of_lt h4]
      · have h1 : l.length - cs + cs - 1 = (l.length - cs - 1) + cs := by omega
        have h2 : l.length + cs - 1 = (l.length - 1) + cs := by omega
        rw [h1, h2, Nat.add_div_right _ hcs, Nat.add_div_right _ hcs]
        have h3 : l.length - cs - 1 + cs = l.length - 1 := by omega
        rw [← h3]
        rw [Nat.add_div_right _ hcs]

theorem pyTruthy_some_ne (f : String) (hf : f ≠ "") : pyTruthy (some f) = true := by
  simp [pyTruthy, hf]

theorem iterLoop_nil (cs : Nat) (firstId : Option String) (count : Nat)
    (lastRow : Option String) :
    iterLoop cs [] firstId count lastRow =
      if pyTruthy firstId then [(firstId.getD "", lastRow.getD "")] else [] := rfl

theorem iterLoop_cons (cs : Nat) (r : String) (rs : List String) (firstId : Option String)
    (count : Nat) (lastRow : Option String) :
    iterLoop cs (r :: rs) firstId count lastRow =
      if count + 1 = cs then
        ((if pyTruthy firstId then firstId else some r).getD "", r) ::
          iterLoop cs rs none 0 (some r)
      else
        iterLoop cs rs (if pyTruthy firstId then firstId else some r) (count + 1) (some r) :=
  rfl

theorem iterLoop_congr_falsy (cs : Nat) (rows : List String) (f1 f2 : Option String)
    (c : Nat) (l1 l2 : Option String) (h1 : pyTruthy f1 = false) (h2 : pyTruthy f2 = false) :
    iterLoop cs rows f1 c l1 = iterLoop cs rows f2 c l2 := by
  cases rows with
  | nil =>
      rw [iterLoop_nil, iterLoop_nil, h1, h2]
      simp
  | cons r rs =>
      rw [iterLoop_cons, iterLoop_cons, h1, h2]
      simp

/-- Processing the remaining rows of a chunk whose first id `f` is already
recorded and truthy: the chunk closes with boundary `(f, last of chunk)`. -/
theorem iterLoop_full_chunk (cs : Nat) (f : String) (hf : f ≠ "") :
    ∀ (chunk rest : List String) (count : Nat) (last : Option String),
      chunk ≠ [] → count + chunk.length = cs →
      iterLoop cs (chunk ++ rest) (some f) count last =
        (f, chunk.getLastD "") :: iterLoop cs rest none 0 (some (chunk.getLastD "")) := by
  intro chunk
  induction chunk with
  | nil => intro rest count last hne; exact absurd rfl hne
  | cons x t ih =>
      intro rest count last _ hcount
      cases t with
      | nil =>
          have hc : count + 1 = cs := by simpa using hcount
          simp only [List.cons_append, List.nil_append]
          rw [iterLoop_cons, if_pos hc]
          simp [pyTruthy_some_ne f hf]
      | cons y t2 =>
          have hne : count + 1 ≠ cs := by
            simp only [List.length_cons] at hcount
            omega
          have hcount2 : (count + 1) + (y :: t2).length = cs := by
            simp only [List.length_cons] at hcount ⊢
            omega
          simp only [List.cons_append]
          rw [iterLoop_cons, if_neg hne, pyTruthy_some_ne f hf]
          simp only [ite_true]
          have ih2 := ih rest (count + 1) (some x) (by simp) hcount2
          rw [List.cons_append] at ih2
          rw [ih2]
          simp [List.getLastD_cons]

/-- Processing a final chunk strictly smaller than `cs` whose first id `f` is
already recorded and truthy: one trailing boundary `(f, last of chunk)`. -/
theorem iterLoop_small_chunk (cs : Nat) (f : String) (hf : f ≠ "") :
    ∀ (chunk : List String) (count : Nat) (last : Option String),
      chunk ≠ [] → count + chunk.length < cs →
      iterLoop cs chunk (some f) count last = [(f, chunk.getLastD "")] := by
  intro chunk
  induction chunk with
  | nil => intro count last hne; exact absurd rfl hne
  | cons x t ih =>
      intro count last _ hcount
      have hne : count + 1 ≠ cs := by
        simp only [List.length_cons] at hcount
        omega
      cases t with
      | nil =>
          rw [iterLoop_cons, if_neg hne, pyTruthy_some_ne f hf]
          simp only [ite_true]
          rw [iterLoop_nil, if_pos (pyTruthy_some_ne f hf)]
          simp
      | cons y t2 =>
          have hcount2 : (count + 1) + (y :: t2).length < cs := by
            simp only [List.length_cons] at hcount ⊢
            omega
          rw [iterLoop_cons, if_neg hne, pyTruthy_some_ne f hf]
          simp only [ite_true]
          rw [ih (count + 1) (some x) (by simp) hcount2]
          simp [List.getLastD_cons]

/-- Starting a fresh chunk of exactly `cs` rows whose first id is non-empty. -/
theorem iterLoop_chunk_start (cs : Nat) (chunk rest : List String) (last : Option String)
    (hne : chunk ≠ []) (hhead : chunk.headD "" ≠ "") (hlen : chunk.length = cs) :
    iterLoop cs (chunk ++ rest) none 0 last =
      (chunk.headD "", chunk.getLastD "") ::
        iterLoop cs rest none 0 (some (chunk.getLastD "")) := by
  cases chunk with
  | nil => exact absurd rfl hne
  | cons r t =>
      simp only [List.headD_cons] at hhead
      cases t with
      | nil =>
          have hc : (0 : Nat) + 1 = cs := by simpa using hlen
          simp only [List.cons_append, List.nil_append]
          rw [iterLoop_cons, if_pos hc]
          simp [pyTruthy]
      | cons y t2 =>
          have hne1 : (0 : Nat) + 1 ≠ cs := by
            simp only [List.length_cons] at hlen
            omega
          have hcount2 : (0 + 1) + (y :: t2).length = cs := by
            simp only [List.length_cons] at hlen ⊢
            omega
          simp only [List.cons_append]
          rw [iterLoop_cons, if_neg hne1]
          simp only [pyTruthy, Bool.false_eq_true, ite_false]
          have hfull := iterLoop_full_chunk cs r hhead (y :: t2) rest (0 + 1) (some r)
            (by simp) hcount2
          rw [List.cons_append] at hfull
          rw [hfull]
          simp [List.getLastD_cons, List.headD_cons]

/-- Starting a fresh final chunk strictly smaller than `cs` whose first id is
non-empty: exactly one trailing boundary. -/
theorem iterLoop_small_start (cs : Nat) (chunk : List String) (last : Option String)
    (hne : chunk ≠ []) (hhead : chunk.headD "" ≠ "") (hlen : chunk.length < cs) :
    iterLoop cs chunk none 0 last = [(chunk.headD "", chunk.getLastD "")] := by
  cases chunk with
  | nil => exact absurd rfl hne
  | cons r t =>
      simp only [List.headD_cons] at hhead
      have hne1 : (0 : Nat) + 1 ≠ cs := by
        simp only [List.length_cons] at hlen
        omega
      cases t with
      | nil =>
          rw [iterLoop_cons, if_neg hne1]
          simp only [pyTruthy, Bool.false_eq_true, ite_false]
          rw [iterLoop_nil, if_pos (pyTruthy_some_ne r hhead)]
          simp
      | cons y t2 =>
          have hcount2 : (0 + 1) + (y :: t2).length < cs := by
            simp only [List.length_cons] at hlen ⊢
            omega
          rw [iterLoop_cons, if_neg hne1]
          simp only [pyTruthy, Bool.false_eq_true, ite_false]
          rw [iterLoop_small_chunk cs r hhead (y :: t2) (0 + 1) (some r) (by simp) hcount2]
          simp [List.getLastD_cons, List.headD_cons]

theorem headD_take (cs : Nat) (hcs : 1 ≤ cs) (rows : List String) :
    (rows.take cs).headD "" = rows.headD "" := by
  cases rows with
  | nil => simp
  | cons r t =>
      obtain ⟨c, rfl⟩ : ∃ c, cs = c + 1 := ⟨cs - 1, by omega⟩
      rw [List.take_succ_cons]
      rfl

/-- With a positive chunk size and non-empty ids, the generator loop yields
exactly the boundary pair of every consecutive `cs`-sized chunk. -/
theorem iterLoop_eq_chunks (cs : Nat) (hcs : 1 ≤ cs) :
    ∀ (n : Nat) (rows : List String), rows.length ≤ n → ∀ (last : Option String),
      (∀ s ∈ rows, s ≠ "") →
      iterLoop cs rows none 0 last = (chunksOf cs rows).map chunkBoundary := by
  intro n
  induction n with
  | zero =>
      intro rows hlen last _
      have : rows = [] := List.eq_nil_of_length_eq_zero (by omega)
      subst this
      rw [chunksOf_nil, iterLoop_nil]
      rfl
  | succ n ih =>
      intro rows hlen last hne
      by_cases hnil : rows = []
      · subst hnil
        rw [chunksOf_nil, iterLoop_nil]
        rfl
      · have hhead : rows.headD "" ≠ "" := by
          cases rows with
          | nil => exact absurd rfl hnil
          | cons r t => exact hne r (List.mem_cons_self r t)
        by_cases hbig : cs < rows.length
        · have htake_len : (rows.take cs).length = cs := by
            simp only [List.length_take]
            omega
          have htake_ne : rows.take cs ≠ [] := by
            intro hcon
            have := congrArg List.length hcon
            rw [htake_len] at this
            simp at this
            omega
          have htake_head : (rows.take cs).headD "" ≠ "" := by
            rw [headD_take cs hcs]
            exact hhead
          have hsplit : rows.take cs ++ rows.drop cs = rows := List.take_append_drop cs rows
          have hstep := iterLoop_chunk_start cs (rows.take cs) (rows.drop cs) last
            htake_ne htake_head htake_len
          rw [hsplit] at hstep
          rw [hstep]
          rw [chunksOf_cons cs rows hnil (by omega), List.map_cons]
          have hdrop_len : (rows.drop cs).length ≤ n := by
            simp only [List.length_drop]
            omega
          rw [ih (rows.drop cs) hdrop_len (some ((rows.take cs).getLastD ""))
            (fun s hs => hne s (List.drop_subset cs rows hs))]
          rfl
        · have hle : rows.length ≤ cs := by omega
          have hone : chunksOf cs rows = [rows] := by
            rw [chunksOf_cons cs rows hnil (by omega), List.take_of_length_le hle,
              List.drop_eq_nil_of_le hle, chunksOf_nil]
          rw [hone, List.map_cons, List.map_nil]
          rcases Nat.lt_or_ge rows.length cs with hlt | hge
          · rw [iterLoop_small_start cs rows last hnil hhead hlt]
            rfl
          · have heq : rows.length = cs := by omega
            have hstep := iterLoop_chunk_start cs rows [] last hnil hhead heq
            rw [List.append_nil] at hstep
            rw [hstep, iterLoop_nil]
            simp [pyTruthy, chunkBoundary]

/-- Top-level form of the correspondence: on a file of non-empty ids, with
`1 ≤ k`, the yielded pairs are the boundaries of the consecutive chunks of
size `ceil(n / k)` (provided that size is positive, i.e. the file is
non-empty). -/
theorem iter_id_ranges_eq_chunks (f : IdFile) (k : Nat) (hk : 1 ≤ k)
    (hrows : 1 ≤ f.rows.length) (hne : ∀ s ∈ f.rows, s ≠ "") :
    iter_id_ranges f k =
      (chunksOf (chunk_size f.rows.length k) f.rows).map chunkBoundary := by
  have hcs : 1 ≤ chunk_size f.rows.length k := by
    unfold chunk_size
    have h1 : k ≤ f.rows.length + k - 1 := by omega
    exact (Nat.one_le_div_iff (by omega)).mpr h1
  unfold iter_id_ranges count_lines
  have hcl : 1 + f.rows.length - 1 = f.rows.length := by omega
  rw [hcl]
  exact iterLoop_eq_chunks (chunk_size f.rows.length k) hcs f.rows.length f.rows
    (le_refl _) none hne

theorem getLastD_mem (c : List String) (d : String) (hc : c ≠ []) : c.getLastD d ∈ c := by
  induction c generalizing d with
  | nil => exact absurd rfl hc
  | cons a t ih =>
      cases t with
      | nil => simp
      | cons b t2 =>
          rw [List.getLastD_cons]
          exact List.mem_cons_of_mem a (ih a (by simp))

theorem headD_mem (c : List String) (hc : c ≠ []) : c.headD "" ∈ c := by
  cases c with
  | nil => exact absurd rfl hc
  | cons a t => simp

theorem sorted_headD_le_getLastD (c : List String) (hc : c ≠ [])
    (hs : List.Sorted (· ≤ ·) c) : c.headD "" ≤ c.getLastD "" := by
  cases c with
  | nil => exact absurd rfl hc
  | cons a t =>
      cases t with
      | nil => simp
      | cons b t2 =>
          rw [List.headD_cons, List.getLastD_cons]
          have hmem : (b :: t2).getLastD a ∈ b :: t2 := getLastD_mem (b :: t2) a (by simp)
          exact (List.sorted_cons.mp hs).1 _ hmem

/-- Boundaries of consecutive non-empty chunks of a sorted list are
non-decreasing: each pair is ordered, and each chunk's max is at most the
next chunk's min. -/
theorem sorted_chunk_boundaries :
    ∀ (chunks : List (List String)), (∀ c ∈ chunks, c ≠ []) →
      List.Sorted (· ≤ ·) chunks.flatten →
      (∀ p ∈ chunks.map chunkBoundary, p.1 ≤ p.2) ∧
      List.Chain' (fun p q : String × String => p.2 ≤ q.1) (chunks.map chunkBoundary) := by
  intro chunks
  induction chunks with
  | nil => intro _ _; exact ⟨by simp, by simp⟩
  | cons c rest ih =>
      intro hne hsort
      rw [List.flatten_cons] at hsort
      rw [List.Sorted, List.pairwise_append] at hsort
      obtain ⟨hc, hrest, hcross⟩ := hsort
      have hcne : c ≠ [] := hne c (List.mem_cons_self c rest)
      obtain ⟨hall, hchain⟩ := ih (fun d hd => hne d (List.mem_cons_of_mem c hd)) hrest
      constructor
      · intro p hp
        rw [List.map_cons, List.mem_cons] at hp
        rcases hp with hp | hp
        · subst hp
          exact sorted_headD_le_getLastD c hcne hc
        · exact hall p hp
      · rw [List.map_cons]
        cases rest with
        | nil => simp
        | cons c2 rest2 =>
            rw [List.map_cons]
            rw [List.chain'_cons]
            refine ⟨?_, by rw [List.map_cons] at hchain; exact hchain⟩
            have hc2ne : c2 ≠ [] := hne c2 (by simp)
            have h1 : c.getLastD "" ∈ c := getLastD_mem c "" hcne
            have h2 : c2.headD "" ∈ (c2 :: rest2).flatten := by
              rw [List.flatten_cons]
              exact List.mem_append_left _ (headD_mem c2 hc2ne)
            exact hcross _ h1 _ h2

theorem chunk_size_pos (n k : Nat) (hk : 1 ≤ k) (hn : 1 ≤ n) : 1 ≤ chunk_size n k := by
  unfold chunk_size
  exact (Nat.one_le_div_iff (by omega)).mpr (by omega)

theorem getLastD_eq_getLast?_getD (l : List String) (d : String) :
    l.getLastD d = (l.getLast?).getD d := by
  cases l <;> simp [List.getLastD_eq_getLast?]

theorem getLast?_append_ne_nil (l1 l2 : List String) (h : l2 ≠ []) :
    (l1 ++ l2).getLast? = l2.getLast? := by
  rw [List.getLast?_append]
  cases h2 : l2.getLast? with
  | none => exact absurd (List.getLast?_eq_none_iff.mp h2) h
  | some a => rfl

/-- The last id of the flattening of non-empty chunks is the last id of the
last chunk. -/
theorem chunks_getLast?_flatten :
    ∀ (chunks : List (List String)), (∀ c ∈ chunks, c ≠ []) →
      (chunks.getLast?).map (fun c => c.getLastD "") = chunks.flatten.getLast? := by
  intro chunks
  induction chunks with
  | nil => intro _; rfl
  | cons c rest ih =>
      intro hne
      cases rest with
      | nil =>
          have hc : c ≠ [] := hne c (by simp)
          simp only [List.getLast?_singleton, List.flatten_cons, List.flatten_nil,
            List.append_nil, Option.map_some']
          rw [getLastD_eq_getLast?_getD, List.getLast?_eq_getLast c hc]
          rfl
      | cons c2 rest2 =>
          have hc2 : c2 ≠ [] := hne c2 (by simp)
          have hflat_ne : (c2 :: rest2).flatten ≠ [] := by
            rw [List.flatten_cons]
            intro hcon
            exact hc2 (List.append_eq_nil.mp hcon).1
          rw [List.getLast?_cons_cons, List.flatten_cons,
            getLast?_append_ne_nil c _ hflat_ne]
          exact ih (fun d hd => hne d (List.mem_cons_of_mem c hd))

/-- The chunk lengths produced by `chunksOf` depend only on the input length. -/
def chunkLens (cs n : Nat) : List Nat :=
  if n = 0 ∨ cs = 0 then [] else min cs n :: chunkLens cs (n - cs)
termination_by n
decreasing_by
  rw [not_or] at *
  omega

theorem chunksOf_map_length (cs : Nat) (l : List String) :
    (chunksOf cs l).map List.length = chunkLens cs l.length := by
  induction l using chunksOf.induct cs with
  | case1 l h =>
      rcases h with h | h
      · subst h
        rw [chunksOf_nil, chunkLens]
        simp
      · subst h
        rw [chunkLens]
        rw [chunksOf]
        simp
  | case2 l h ih =>
      rw [not_or] at h
      have hlen := List.length_pos.mpr h.1
      rw [chunksOf_cons cs l h.1 h.2, List.map_cons, ih, List.length_drop]
      conv_rhs => rw [chunkLens]
      rw [if_neg (by omega)]
      simp [List.length_take, Nat.min_comm]

/-- C1: with `n ≥ 1` sorted non-empty ids and `1 ≤ k ≤ n`, `iter_id_ranges`
yields the boundary pair (first id, last id) of each consecutive chunk of
`ceil(n/k)` rows; the chunks partition the rows with no gaps or overlaps (they
flatten back to the row list), every chunk but possibly the last has exactly
`ceil(n/k)` rows, the last is a non-empty remainder of at most that size, and
the boundary sequence is non-decreasing. -/
theorem iter_id_ranges_partitions_sorted_file (f : IdFile) (k : Nat)
    (hn : 1 ≤ f.rows.length) (hk1 : 1 ≤ k) (hkn : k ≤ f.rows.length)
    (hne : ∀ s ∈ f.rows, s ≠ "")
    (hsort : List.Sorted (· ≤ ·) f.rows) :
    iter_id_ranges f k =
      (chunksOf (chunk_size f.rows.length k) f.rows).map chunkBoundary ∧
    (chunksOf (chunk_size f.rows.length k) f.rows).flatten = f.rows ∧
    (∀ c ∈ (chunksOf (chunk_size f.rows.length k) f.rows).dropLast,
      c.length = chunk_size f.rows.length k) ∧
    (∀ c ∈ chunksOf (chunk_size f.rows.length k) f.rows,
      1 ≤ c.length ∧ c.length ≤ chunk_size f.rows.length k) ∧
    (∀ p ∈ iter_id_ranges f k, p.1 ≤ p.2) ∧
    List.Chain' (fun p q : String × String => p.2 ≤ q.1) (iter_id_ranges f k) := by
  have hcs := chunk_size_pos f.rows.length k hk1 hn
  have hmap := iter_id_ranges_eq_chunks f k hk1 hn hne
  have hflat := chunksOf_flatten (chunk_size f.rows.length k) hcs f.rows
  have hbnd := sorted_chunk_boundaries (chunksOf (chunk_size f.rows.length k) f.rows)
    (fun c hc => (mem_chunksOf _ hcs _ c hc).1) (by rw [hflat]; exact hsort)
  refine ⟨hmap, hflat, ?_, ?_, ?_, ?_⟩
  · intro c hc
    exact chunksOf_dropLast_length _ hcs _ c hc
  · intro c hc
    exact (mem_chunksOf _ hcs _ c hc).2
  · intro p hp
    rw [hmap] at hp
    exact hbnd.1 p hp
  · rw [hmap]
    exact hbnd.2

/-- C1 witness: concrete instance with five sorted ids and `k = 2`. -/
theorem iter_id_ranges_partitions_sorted_file_witness :
    List.Chain' (fun p q : String × String => p.2 ≤ q.1)
      (iter_id_ranges ⟨"id", ["a", "b", "c", "d", "e"]⟩ 2) := by
  have hsort : List.Sorted (· ≤ ·) ["a", "b", "c", "d", "e"] := by
    apply List.chain'_iff_pairwise.mp
    simp only [List.chain'_cons, List.chain'_singleton, and_true, String.le_iff_toList_le]
    exact ⟨by decide, by decide, by decide, by decide⟩
  exact (iter_id_ranges_partitions_sorted_file ⟨"id", ["a", "b", "c", "d", "e"]⟩ 2
    (by decide) (by decide) (by decide) (by decide) hsort).2.2.2.2.2

/-- C8: a header-only file (zero data rows) yields no boundary pairs, for any
target count `k ≥ 1`. -/
theorem iter_id_ranges_empty_file (header : String) (k : Nat) (hk : 1 ≤ k) :
    iter_id_ranges ⟨header, []⟩ k = [] := rfl

/-- C8 witness. -/
theorem iter_id_ranges_empty_file_witness :
    iter_id_ranges ⟨"work_id", []⟩ 10 = [] :=
  iter_id_ranges_empty_file "work_id" 10 (by decide)

theorem chunk_count_le (n k : Nat) (hk : 1 ≤ k) (hkn : k ≤ n) :
    (n + chunk_size n k - 1) / chunk_size n k ≤ k := by
  have hcs := chunk_size_pos n k hk (by omega)
  have hdm := Nat.div_add_mod (n + k - 1) k
  have hmod : (n + k - 1) % k < k := Nat.mod_lt _ (by omega)
  have hge : n ≤ k * chunk_size n k := by
    unfold chunk_size
    omega
  apply (Nat.div_le_iff_le_mul_add_pred hcs).mpr
  have hcomm : chunk_size n k * k = k * chunk_size n k := Nat.mul_comm _ _
  omega

/-- C10: with non-empty ids, the number of yielded pairs is
`ceil(n / ceil(n/k))`, which never exceeds the requested count `k` but can be
strictly smaller: 1000 ids with target 300 produce only 250 pairs. -/
theorem iter_id_ranges_pair_count :
    (∀ (f : IdFile) (k : Nat), 1 ≤ k → k ≤ f.rows.length →
      (∀ s ∈ f.rows, s ≠ "") →
      (iter_id_ranges f k).length =
        (f.rows.length + chunk_size f.rows.length k - 1) / chunk_size f.rows.length k ∧
      (iter_id_ranges f k).length ≤ k) ∧
    (iter_id_ranges ⟨"id", List.replicate 1000 "a"⟩ 300).length = 250 ∧ (250 : Nat) < 300 := by
  have main : ∀ (f : IdFile) (k : Nat), 1 ≤ k → k ≤ f.rows.length →
      (∀ s ∈ f.rows, s ≠ "") →
      (iter_id_ranges f k).length =
        (f.rows.length + chunk_size f.rows.length k - 1) / chunk_size f.rows.length k ∧
      (iter_id_ranges f k).length ≤ k := by
    intro f k hk hkn hne
    have hn : 1 ≤ f.rows.length := by omega
    have hcs := chunk_size_pos f.rows.length k hk hn
    have hmap := iter_id_ranges_eq_chunks f k hk hn hne
    have hlen : (iter_id_ranges f k).length =
        (f.rows.length + chunk_size f.rows.length k - 1) / chunk_size f.rows.length k := by
      rw [hmap, List.length_map]
      exact chunksOf_length _ hcs f.rows
    exact ⟨hlen, hlen ▸ chunk_count_le f.rows.length k hk hkn⟩
  refine ⟨main, ?_, by norm_num⟩
  have hne : ∀ s ∈ List.replicate 1000 "a", s ≠ "" := by
    intro s hs
    rw [List.eq_of_mem_replicate hs]
    decide
  have h := (main ⟨"id", List.replicate 1000 "a"⟩ 300 (by norm_num)
    (by simp only [List.length_replicate]; norm_num) hne).1
  rw [h]
  simp only [List.length_replicate]
  norm_num [chunk_size]

/-- C10 witness: the pair-count formula applied at a concrete file. -/
theorem iter_id_ranges_pair_count_witness :
    (iter_id_ranges ⟨"id", ["a", "b", "c", "d", "e"]⟩ 4).length = 3 := by
  have h := (iter_id_ranges_pair_count.1 ⟨"id", ["a", "b", "c", "d", "e"]⟩ 4
    (by decide) (by decide) (by decide)).1
  rw [h]
  norm_num [chunk_size]

/-- The file of 95 consecutive sorted three-digit ids used to test the
95-row / 10-target scenario. -/
def ids95 : List String := (List.range 95).map (fun i => toString (100 + i))

/-- C3 counterexample: on 95 sorted ids with target 10 it is NOT the case that
every yielded pair covers 9 or 10 consecutive ids — the last pair covers
only the 5 remainder ids (the chunk size is `ceil(95/10) = 10`, so nine
chunks of 10 leave a remainder of 5). -/
theorem iter_id_ranges_95_10_counterexample :
    ¬ (∀ p ∈ iter_id_ranges ⟨"work_id", ids95⟩ 10,
        ids95.indexOf p.2 + 1 - ids95.indexOf p.1 = 9 ∨
        ids95.indexOf p.2 + 1 - ids95.indexOf p.1 = 10) := by
  decide

/-- C3 amended: a 95-data-row file with non-empty ids and target 10 yields
exactly 10 boundary pairs, the pairs are the boundaries of consecutive chunks
of sizes 10,10,10,10,10,10,10,10,10,5 (nine full chunks of 10 consecutive ids
and a final remainder of 5), the first pair starts at the first id, and
the last pair ends at the 95th id. -/
theorem iter_id_ranges_95_10_amended (f : IdFile) (hn : f.rows.length = 95)
    (hne : ∀ s ∈ f.rows, s ≠ "") :
    (iter_id_ranges f 10).length = 10 ∧
    iter_id_ranges f 10 = (chunksOf 10 f.rows).map chunkBoundary ∧
    (chunksOf 10 f.rows).map List.length = List.replicate 9 10 ++ [5] ∧
    (iter_id_ranges f 10).head?.map Prod.fst = f.rows.head? ∧
    (iter_id_ranges f 10).getLast?.map Prod.snd = f.rows.getLast? := by
  have hrows1 : 1 ≤ f.rows.length := by omega
  have hcs10 : chunk_size f.rows.length 10 = 10 := by
    rw [hn]
    decide
  have hmap := iter_id_ranges_eq_chunks f 10 (by norm_num) hrows1 hne
  rw [hcs10] at hmap
  have hnil : f.rows ≠ [] := by
    intro hcon
    rw [hcon] at hn
    simp at hn
  have hlens : (chunksOf 10 f.rows).map List.length = chunkLens 10 f.rows.length :=
    chunksOf_map_length 10 f.rows
  rw [hn] at hlens
  have hlens95 : chunkLens 10 95 = List.replicate 9 10 ++ [5] := by
    rw [chunkLens, chunkLens, chunkLens, chunkLens, chunkLens, chunkLens, chunkLens,
      chunkLens, chunkLens, chunkLens, chunkLens]
    norm_num
    decide
  refine ⟨?_, hmap, by rw [hlens, hlens95], ?_, ?_⟩
  · rw [hmap, List.length_map]
    have := chunksOf_length 10 (by norm_num) f.rows
    rw [hn] at this
    rw [this]
  · rw [hmap]
    cases hr : f.rows with
    | nil => exact absurd hr hnil
    | cons a t =>
        rw [chunksOf_cons 10 (a :: t) (by simp) (by norm_num), List.map_cons,
          List.head?_cons, List.head?_cons]
        simp only [Option.map_some', chunkBoundary]
        rw [headD_take 10 (by norm_num) (a :: t)]
        rfl
  · rw [hmap, List.getLast?_map]
    have hflat := chunksOf_flatten 10 (by norm_num) f.rows
    have hchne : ∀ c ∈ chunksOf 10 f.rows, c ≠ [] :=
      fun c hc => (mem_chunksOf 10 (by norm_num) f.rows c hc).1
    have hlast := chunks_getLast?_flatten (chunksOf 10 f.rows) hchne
    rw [hflat] at hlast
    rw [← hlast]
    cases hl : (chunksOf 10 f.rows).getLast? with
    | none => rfl
    | some c =>
        simp only [Option.map_some']
        rfl

/-- C3 amended witness: the concrete 95-id file. -/
theorem iter_id_ranges_95_10_amended_witness :
    (iter_id_ranges ⟨"work_id", ids95⟩ 10).length = 10 ∧
    (iter_id_ranges ⟨"work_id", ids95⟩ 10).head?.map Prod.fst = ids95.head? ∧
    (iter_id_ranges ⟨"work_id", ids95⟩ 10).getLast?.map Prod.snd = ids95.getLast? := by
  have h := iter_id_ranges_95_10_amended ⟨"work_id", ids95⟩ (by decide) (by decide)
  exact ⟨h.1, h.2.2.2.1, h.2.2.2.2⟩

/-- Once a truthy `first_id` is recorded, the next yielded pair (or the final
remainder pair) opens with exactly that id. -/
theorem iterLoop_head_fst (cs : Nat) (f : String) (hf : f ≠ "") :
    ∀ (rows : List String) (c : Nat) (last : Option String),
      ((iterLoop cs rows (some f) c last).head?).map Prod.fst = some f := by
  intro rows
  induction rows with
  | nil =>
      intro c last
      rw [iterLoop_nil, if_pos (pyTruthy_some_ne f hf)]
      rfl
  | cons r rs ih =>
      intro c last
      rw [iterLoop_cons]
      by_cases hc : c + 1 = cs
      · rw [if_pos hc, pyTruthy_some_ne f hf]
        rfl
      · rw [if_neg hc, pyTruthy_some_ne f hf]
        simp only [ite_true]
        exact ih (c + 1) (some r)

/-- Rows carrying empty-string ids never make `first_id` truthy: as long as
the chunk does not fill up, they are skipped without recording a start id. -/
theorem iterLoop_skip_empties (cs : Nat) :
    ∀ (e : Nat) (xs : List String) (c : Nat) (last : Option String), c + e < cs →
      iterLoop cs (List.replicate e "" ++ xs) none c last =
        iterLoop cs xs none (c + e) none := by
  intro e
  induction e with
  | zero =>
      intro xs c last _
      rw [List.replicate_zero, List.nil_append]
      exact iterLoop_congr_falsy cs xs none none c last none rfl rfl
  | succ e ih =>
      intro xs c last hlt
      rw [List.replicate_succ, List.cons_append, iterLoop_cons,
        if_neg (by omega : ¬ c + 1 = cs)]
      simp only [pyTruthy, Bool.false_eq_true, ite_false]
      rw [iterLoop_congr_falsy cs (List.replicate e "" ++ xs) (some "") none (c + 1)
        (some "") none (by simp [pyTruthy]) rfl]
      rw [ih xs (c + 1) none (by omega)]
      have : c + 1 + e = c + (e + 1) := by omega
      rw [this]

/-- C9: chunk starts are tracked by Python truthiness (`if not first_id`), so
`(a)` when the rows opening a chunk carry empty-string ids, the yielded
minimum of that chunk is the first non-empty id rather than the chunk's
actual first id (here shown for the first chunk: `e ≥ 1` empty ids followed
by a non-empty `x` still inside the first chunk yield a first pair opening
with `x`, while the file's first id is `""`), and `(b)` a trailing chunk all
of whose ids are empty strings yields no boundary pair at all (shown both for
the loop on any all-empty remainder that never fills a chunk, and concretely:
`["a", "a", ""]` with target 2 yields one pair, not two). -/
theorem iter_id_ranges_truthiness_empty_ids :
    (∀ (e : Nat) (x : String) (rest : List String) (hdr : String) (k : Nat),
      1 ≤ e → x ≠ "" → 1 ≤ k →
      e < chunk_size (e + 1 + rest.length) k →
      (List.replicate e "" ++ x :: rest).head? = some "" ∧
      ((iter_id_ranges ⟨hdr, List.replicate e "" ++ x :: rest⟩ k).head?).map Prod.fst =
        some x) ∧
    (∀ (cs : Nat) (tail : List String) (c : Nat) (last : Option String),
      (∀ y ∈ tail, y = "") → c + tail.length < cs →
      iterLoop cs tail none c last = []) ∧
    iter_id_ranges ⟨"id", ["a", "a", ""]⟩ 2 = [("a", "a")] := by
  refine ⟨?_, ?_, by decide⟩
  · intro e x rest hdr k he hx hk hcs
    constructor
    · obtain ⟨e2, rfl⟩ : ∃ e2, e = e2 + 1 := ⟨e - 1, by omega⟩
      rw [List.replicate_succ, List.cons_append, List.head?_cons]
    · have hrows : (List.replicate e "" ++ x :: rest).length = e + 1 + rest.length := by
        simp only [List.length_append, List.length_replicate, List.length_cons]
        omega
      unfold iter_id_ranges count_lines
      simp only
      have hcl : 1 + (List.replicate e "" ++ x :: rest).length - 1 =
          e + 1 + rest.length := by
        rw [hrows]
        omega
      rw [hcl]
      rw [iterLoop_skip_empties (chunk_size (e + 1 + rest.length) k) e (x :: rest) 0 none
        (by omega)]
      rw [iterLoop_cons]
      by_cases hfull : 0 + e + 1 = chunk_size (e + 1 + rest.length) k
      · rw [if_pos hfull]
        rfl
      · rw [if_neg hfull]
        simp only [pyTruthy, Bool.false_eq_true, ite_false]
        exact iterLoop_head_fst _ x hx rest (0 + e + 1) (some x)
  · intro cs tail
    induction tail with
    | nil =>
        intro c last _ _
        rfl
    | cons y t ih =>
        intro c last hall hlt
        rw [iterLoop_cons, if_neg (by simp only [List.length_cons] at hlt; omega)]
        have hy : y = "" := hall y (by simp)
        subst hy
        simp only [pyTruthy, Bool.false_eq_true, ite_false]
        rw [iterLoop_congr_falsy cs t (some "") none (c + 1) (some "") none
          (by simp [pyTruthy]) rfl]
        exact ih (c + 1) none (fun z hz => hall z (List.mem_cons_of_mem _ hz))
          (by simp only [List.length_cons] at hlt; omega)

/-- C9 witness: `["", "b"]` with target 1 yields a first pair opening at `"b"`
although the file's first id is `""`; an all-empty remainder yields nothing. -/
theorem iter_id_ranges_truthiness_empty_ids_witness :
    ((iter_id_ranges ⟨"id", ["", "b"]⟩ 1).head?).map Prod.fst = some "b" ∧
    iterLoop 5 ["", ""] none 0 none = [] := by
  constructor
  · exact (iter_id_ranges_truthiness_empty_ids.1 1 "b" [] "id" 1 (by decide) (by decide)
      (by decide) (by decide)).2
  · exact iter_id_ranges_truthiness_empty_ids.2.1 5 ["", ""] 0 none (by decide) (by decide)

/-- External probes observed by one polling round of `limit_jobs`: whether
`squeue -h -j <job>` prints non-empty output for a handle, and the result of
`free_connections_exceed(threshold)`. -/
structure Env where
  inQueue : String → Bool
  freeExceed : Nat → Bool

/-- Outcome of one round of the `while True` loop in `limit_jobs`: the gate
either returns the pruned queue after sleeping `sleepSecs`, or sleeps
`sleepSecs` and re-polls with the pruned queue. -/
inductive RoundOutcome where
  | ret (sleepSecs : Nat) (queue : List String)
  | wait (sleepSecs : Nat) (queue : List String)
deriving DecidableEq

/-- One round of `limit_jobs`: prune `job_queue` to the handles `squeue` still
reports, then test the three tiered release conditions in order. -/
def limit_jobs_round (env : Env) (job_queue : List String)
    (max_jobs_running : Nat) : RoundOutcome :=
  let still_running := job_queue.filter env.inQueue
  let n_running := still_running.length
  if n_running < max_jobs_running - 150 then
    RoundOutcome.ret 5 still_running
  else if n_running < max_jobs_running - 20 ∧ env.freeExceed 30 = true then
    RoundOutcome.ret 5 still_running
  else if n_running < max_jobs_running ∧ env.freeExceed 15 = true then
    RoundOutcome.ret 15 still_running
  else
    RoundOutcome.wait 30 still_running

/-- One round of `limit_jobs`, additionally recording the thresholds passed to
`free_connections_exceed` in call order (Python's `and` short-circuits, so a
probe runs only when the in-flight count test before it succeeds). -/
def limit_jobs_round_logged (env : Env) (job_queue : List String)
    (max_jobs_running : Nat) : RoundOutcome × List Nat :=
  let still_running := job_queue.filter env.inQueue
  let n_running := still_running.length
  if n_running < max_jobs_running - 150 then
    (RoundOutcome.ret 5 still_running, [])
  else if n_running < max_jobs_running - 20 then
    if env.freeExceed 30 then (RoundOutcome.ret 5 still_running, [30])
    else if n_running < max_jobs_running then
      if env.freeExceed 15 then (RoundOutcome.ret 15 still_running, [30, 15])
      else (RoundOutcome.wait 30 still_running, [30, 15])
    else (RoundOutcome.wait 30 still_running, [30])
  else if n_running < max_jobs_running then
    if env.freeExceed 15 then (RoundOutcome.ret 15 still_running, [15])
    else (RoundOutcome.wait 30 still_running, [15])
  else (RoundOutcome.wait 30 still_running, [])

theorem limit_jobs_round_logged_fst (env : Env) (q : List String) (m : Nat) :
    (limit_jobs_round_logged env q m).1 = limit_jobs_round env q m := by
  unfold limit_jobs_round limit_jobs_round_logged
  by_cases h1 : (q.filter env.inQueue).length < m - 150 <;>
    by_cases h2 : (q.filter env.inQueue).length < m - 20 <;>
      by_cases h3 : (q.filter env.inQueue).length < m <;>
        cases hf30 : env.freeExceed 30 <;>
          cases hf15 : env.freeExceed 15 <;>
            simp [h1, h2, h3, hf30, hf15]

/-- The `while True` polling loop of `limit_jobs`. Round `i` observes probe
state `envs i`; `fuel` bounds how many rounds we examine (the Python loop is
unbounded, so `none` means the gate had not yet released). On release,
returns the pruned queue and the next unused round index. -/
def limitJobsLoop (envs : Nat → Env) (m i fuel : Nat) (q : List String) :
    Option (List String × Nat) :=
  match fuel with
  | 0 => none
  | fuel2 + 1 =>
      match limit_jobs_round (envs i) q m with
      | RoundOutcome.ret _ q2 => some (q2, i + 1)
      | RoundOutcome.wait _ q2 => limitJobsLoop envs m (i + 1) fuel2 q2

/-- `limit_jobs(job_queue, max_jobs_running)` under a stream of probe states:
the queue returned once the gate releases. -/
def limit_jobs (envs : Nat → Env) (fuel : Nat) (job_queue : List String)
    (max_jobs_running : Nat) : Option (List String) :=
  (limitJobsLoop envs max_jobs_running 0 fuel job_queue).map Prod.fst

theorem limitJobsLoop_zero (envs : Nat → Env) (m i : Nat) (q : List String) :
    limitJobsLoop envs m i 0 q = none := rfl

theorem limitJobsLoop_succ (envs : Nat → Env) (m i fuel : Nat) (q : List String) :
    limitJobsLoop envs m i (fuel + 1) q =
      match limit_jobs_round (envs i) q m with
      | RoundOutcome.ret _ q2 => some (q2, i + 1)
      | RoundOutcome.wait _ q2 => limitJobsLoop envs m (i + 1) fuel q2 := rfl

theorem limit_jobs_round_ret (env : Env) (q : List String) (m s : Nat)
    (q2 : List String) (h : limit_jobs_round env q m = RoundOutcome.ret s q2) :
    q2 = q.filter env.inQueue ∧ q2.length < m := by
  unfold limit_jobs_round at h
  by_cases h1 : (q.filter env.inQueue).length < m - 150
  · rw [if_pos h1] at h
    cases h
    exact ⟨rfl, by omega⟩
  · rw [if_neg h1] at h
    by_cases h2 : (q.filter env.inQueue).length < m - 20 ∧ env.freeExceed 30 = true
    · rw [if_pos h2] at h
      cases h
      exact ⟨rfl, by omega⟩
    · rw [if_neg h2] at h
      by_cases h3 : (q.filter env.inQueue).length < m ∧ env.freeExceed 15 = true
      · rw [if_pos h3] at h
        cases h
        exact ⟨rfl, h3.1⟩
      · rw [if_neg h3] at h
        cases h

theorem limitJobsLoop_ret_lt (envs : Nat → Env) (m : Nat) :
    ∀ (fuel i : Nat) (q q2 : List String) (i2 : Nat),
      limitJobsLoop envs m i fuel q = some (q2, i2) → q2.length < m := by
  intro fuel
  induction fuel with
  | zero => intro i q q2 i2 h; cases h
  | succ fuel ih =>
      intro i q q2 i2 h
      rw [limitJobsLoop_succ] at h
      cases hr : limit_jobs_round (envs i) q m with
      | ret s q3 =>
          rw [hr] at h
          have h2 : some (q3, i + 1) = some (q2, i2) := h
          cases h2
          exact (limit_jobs_round_ret (envs i) q m s q2 hr).2
      | wait s q3 =>
          rw [hr] at h
          exact ih (i + 1) q3 q2 i2 h

/-- C2: the gate never returns while the pruned in-flight count is at or
above the ceiling and the free-connection probe at the lowest threshold (15)
fails — indeed every release requires the pruned count to be strictly below
the ceiling — and in any polling round in which none of the three release
conditions holds, the round sleeps 30 seconds and the loop re-polls on the
pruned queue instead of returning. -/
theorem limit_jobs_never_returns_saturated :
    (∀ (env : Env) (q : List String) (m : Nat),
      m ≤ (q.filter env.inQueue).length → env.freeExceed 15 = false →
      limit_jobs_round env q m = RoundOutcome.wait 30 (q.filter env.inQueue)) ∧
    (∀ (env : Env) (q : List String) (m : Nat),
      ¬ ((q.filter env.inQueue).length < m - 150) →
      ¬ ((q.filter env.inQueue).length < m - 20 ∧ env.freeExceed 30 = true) →
      ¬ ((q.filter env.inQueue).length < m ∧ env.freeExceed 15 = true) →
      limit_jobs_round env q m = RoundOutcome.wait 30 (q.filter env.inQueue)) ∧
    (∀ (envs : Nat → Env) (m i fuel : Nat) (q q2 : List String) (s : Nat),
      limit_jobs_round (envs i) q m = RoundOutcome.wait s q2 →
      limitJobsLoop envs m i (fuel + 1) q = limitJobsLoop envs m (i + 1) fuel q2) ∧
    (∀ (envs : Nat → Env) (fuel : Nat) (q : List String) (m : Nat) (q2 : List String),
      limit_jobs envs fuel q m = some q2 → q2.length < m) := by
  have hwait : ∀ (env : Env) (q : List String) (m : Nat),
      ¬ ((q.filter env.inQueue).length < m - 150) →
      ¬ ((q.filter env.inQueue).length < m - 20 ∧ env.freeExceed 30 = true) →
      ¬ ((q.filter env.inQueue).length < m ∧ env.freeExceed 15 = true) →
      limit_jobs_round env q m = RoundOutcome.wait 30 (q.filter env.inQueue) := by
    intro env q m h1 h2 h3
    unfold limit_jobs_round
    rw [if_neg h1, if_neg h2, if_neg h3]
  refine ⟨?_, hwait, ?_, ?_⟩
  · intro env q m hm hf
    apply hwait env q m (by omega) (by omega)
    intro hcon
    rw [hf] at hcon
    exact absurd hcon.2 (by simp)
  · intro envs m i fuel q q2 s h
    rw [limitJobsLoop_succ, h]
  · intro envs fuel q m q2 h
    unfold limit_jobs at h
    cases hl : limitJobsLoop envs m 0 fuel q with
    | none => rw [hl] at h; cases h
    | some p =>
        rw [hl] at h
        cases h
        exact limitJobsLoop_ret_lt envs m fuel 0 q p.1 p.2 (by rw [hl])

/-- C2 witness: a saturated round (count 1 ≥ ceiling 1, probe false) waits. -/
theorem limit_jobs_never_returns_saturated_witness :
    limit_jobs_round ⟨fun _ => true, fun _ => false⟩ ["j1"] 1 =
      RoundOutcome.wait 30 ["j1"] := by
  have h := limit_jobs_never_returns_saturated.1 ⟨fun _ => true, fun _ => false⟩
    ["j1"] 1 (by decide) (by decide)
  simpa using h

/-- C6: whenever the pruned in-flight count is strictly below
`max_jobs_running - 150` (tier 1), the round releases immediately, the
database probe is never invoked (the call log is empty), and the outcome is
identical under any other probe behaviour with the same queue membership. -/
theorem limit_jobs_tier1_no_db_probe (env : Env) (q : List String) (m : Nat)
    (h : (q.filter env.inQueue).length < m - 150) :
    limit_jobs_round env q m = RoundOutcome.ret 5 (q.filter env.inQueue) ∧
    (limit_jobs_round_logged env q m).2 = [] ∧
    (∀ env2 : Env, env2.inQueue = env.inQueue →
      limit_jobs_round env2 q m = limit_jobs_round env q m) := by
  have hret : limit_jobs_round env q m = RoundOutcome.ret 5 (q.filter env.inQueue) := by
    unfold limit_jobs_round
    rw [if_pos h]
  have hlog : (limit_jobs_round_logged env q m).2 = [] := by
    unfold limit_jobs_round_logged
    rw [if_pos h]
  refine ⟨hret, hlog, ?_⟩
  intro env2 h2
  have h2q : q.filter env2.inQueue = q.filter env.inQueue := by rw [h2]
  have h2len : (q.filter env2.inQueue).length < m - 150 := by rw [h2q]; exact h
  rw [hret]
  unfold limit_jobs_round
  rw [if_pos h2len, h2q]

/-- C6 witness: an empty queue far below the ceiling releases identically
under two probes that disagree on every database answer. -/
theorem limit_jobs_tier1_no_db_probe_witness :
    limit_jobs_round ⟨fun _ => false, fun _ => true⟩ [] 180 =
      limit_jobs_round ⟨fun _ => false, fun _ => false⟩ [] 180 ∧
    (limit_jobs_round_logged ⟨fun _ => false, fun _ => false⟩ [] 180).2 = [] := by
  have h := limit_jobs_tier1_no_db_probe ⟨fun _ => false, fun _ => false⟩ [] 180
    (by decide)
  exact ⟨(h.2.2 ⟨fun _ => false, fun _ => true⟩ rfl).symm, h.2.1⟩

/-- C7: the gate releases only when the pruned in-flight set is strictly
below the ceiling, so after the driver appends the one newly submitted
handle, the tracked set has at most `max_jobs_running` handles. Stated for a
single round and for the whole polling loop. -/
theorem limit_jobs_ceiling_invariant :
    (∀ (env : Env) (q : List String) (m s : Nat) (q2 : List String),
      limit_jobs_round env q m = RoundOutcome.ret s q2 →
      q2.length < m ∧ ∀ handle : String, (q2 ++ [handle]).length ≤ m) ∧
    (∀ (envs : Nat → Env) (m i fuel : Nat) (q q2 : List String) (i2 : Nat),
      limitJobsLoop envs m i fuel q = some (q2, i2) →
      q2.length < m ∧ ∀ handle : String, (q2 ++ [handle]).length ≤ m) := by
  constructor
  · intro env q m s q2 h
    have := (limit_jobs_round_ret env q m s q2 h).2
    constructor
    · exact this
    · intro handle
      simp only [List.length_append, List.length_cons, List.length_nil]
      omega
  · intro envs m i fuel q q2 i2 h
    have := limitJobsLoop_ret_lt envs m fuel i q q2 i2 h
    constructor
    · exact this
    · intro handle
      simp only [List.length_append, List.length_cons, List.length_nil]
      omega

/-- C7 witness: a release with one surviving handle under ceiling 180. -/
theorem limit_jobs_ceiling_invariant_witness :
    (["j1"] : List String).length < 180 ∧
    ((["j1"] : List String) ++ ["j2"]).length ≤ 180 := by
  have h := limit_jobs_ceiling_invariant.1 ⟨fun _ => true, fun _ => true⟩ ["j1"] 180 5
    ["j1"] (by decide)
  exact ⟨h.1, h.2 "j2"⟩

/-- Python `str.split()` on a list of characters: maximal runs of
non-whitespace characters, with `acc` holding the (reversed) current run. -/
def wsTokens : List Char → List Char → List String
  | [], acc => if acc.isEmpty then [] else [String.mk acc.reverse]
  | c :: cs, acc =>
      if c.isWhitespace then
        if acc.isEmpty then wsTokens cs [] else String.mk acc.reverse :: wsTokens cs []
      else wsTokens cs (c :: acc)

/-- `submit.stdout.decode().strip().split()[-1]`: the final
whitespace-delimited token of the submission response; `none` models the
`IndexError` raised when the response has no token at all. -/
def parseJobHandle (s : String) : Option String :=
  (wsTokens s.toList []).getLast?

/-- External world of one driver run: the probe state of each polling round
and the `sbatch` stdout of each submission, in submission order. -/
structure DriverEnv where
  envs : Nat → Env
  sbatchOut : Nat → String

/-- The `for idx, (min_id, max_id) in enumerate(iter_id_ranges(...), start=1)`
loop of `submit_subgroup_jobs`: indices below 5556 are skipped by the
hardcoded resume filter; each remaining partition passes the `limit_jobs`
gate (`fuel` polling rounds allowed per call, `i` the global round cursor),
is submitted (`s` counts submissions), and its parsed handle is appended to
`job_queue`. `submitted` accumulates every submitted handle (ghost state used
only by the theorems). `none` models a gate that never released within `fuel`
rounds, or an `IndexError` while parsing a submission response. -/
def submitLoop (denv : DriverEnv) (m fuel : Nat) (ps : List (Nat × (String × String)))
    (i s : Nat) (job_queue submitted : List String) :
    Option (List String × List String) :=
  match ps with
  | [] => some (job_queue, submitted)
  | (idx, _) :: ps2 =>
      if idx < 5556 then submitLoop denv m fuel ps2 i s job_queue submitted
      else
        match limitJobsLoop denv.envs m i fuel job_queue with
        | none => none
        | some (q2, i2) =>
            match parseJobHandle (denv.sbatchOut s) with
            | none => none
            | some job_id =>
                submitLoop denv m fuel ps2 i2 (s + 1) (q2 ++ [job_id])
                  (submitted ++ [job_id])

/-- `submit_subgroup_jobs(index_csv, num_subgroups, output_dir)`: runs the
submission loop over the enumerated partitions and returns the final
`job_queue` (paired with the ghost list of all submitted handles). -/
def submit_subgroup_jobs (denv : DriverEnv) (f : IdFile) (num_subgroups : Nat)
    (max_jobs_running fuel : Nat) : Option (List String × List String) :=
  submitLoop denv max_jobs_running fuel
    (List.enumFrom 1 (iter_id_ranges f num_subgroups)) 0 0 [] []

theorem submitLoop_nil (denv : DriverEnv) (m fuel i s : Nat) (q sub : List String) :
    submitLoop denv m fuel [] i s q sub = some (q, sub) := rfl

theorem submitLoop_cons (denv : DriverEnv) (m fuel : Nat) (idx : Nat)
    (p : String × String) (ps2 : List (Nat × (String × String))) (i s : Nat)
    (q sub : List String) :
    submitLoop denv m fuel ((idx, p) :: ps2) i s q sub =
      if idx < 5556 then submitLoop denv m fuel ps2 i s q sub
      else
        match limitJobsLoop denv.envs m i fuel q with
        | none => none
        | some (q2, i2) =>
            match parseJobHandle (denv.sbatchOut s) with
            | none => none
            | some job_id =>
                submitLoop denv m fuel ps2 i2 (s + 1) (q2 ++ [job_id])
                  (sub ++ [job_id]) := rfl

theorem submitLoop_skip (denv : DriverEnv) (m fuel : Nat) :
    ∀ (pre ps : List (Nat × (String × String))) (i s : Nat) (q sub : List String),
      (∀ pr ∈ pre, pr.1 < 5556) →
      submitLoop denv m fuel (pre ++ ps) i s q sub =
        submitLoop denv m fuel ps i s q sub := by
  intro pre
  induction pre with
  | nil =>
      intro ps i s q sub _
      rw [List.nil_append]
  | cons pr pre2 ih =>
      intro ps i s q sub hall
      obtain ⟨idx, p⟩ := pr
      rw [List.cons_append, submitLoop_cons,
        if_pos (hall (idx, p) (List.mem_cons_self _ _))]
      exact ih ps i s q sub (fun x hx => hall x (List.mem_cons_of_mem _ hx))

/-- With chunk size 1 every row closes its own chunk, so each of the `n` rows
yields the pair `(x, x)`. -/
theorem iterLoop_chunk1_replicate (x : String) :
    ∀ (n : Nat) (last : Option String),
      iterLoop 1 (List.replicate n x) none 0 last = List.replicate n (x, x) := by
  intro n
  induction n with
  | zero => intro last; rfl
  | succ n ih =>
      intro last
      rw [List.replicate_succ, iterLoop_cons, if_pos rfl]
      rw [List.replicate_succ]
      simp [pyTruthy, ih]

/-- The identifier rows of the counterexample run: 5557 identical ids, so
that the hardcoded `idx < 5556` resume filter still lets two jobs through. -/
def rows5557 : List String := List.replicate 5557 "a"

theorem count_lines_rows5557 : count_lines ⟨"id", rows5557⟩ = 5557 := by
  unfold count_lines rows5557
  rw [List.length_replicate]

theorem iter_id_ranges_rows5557 :
    iter_id_ranges ⟨"id", rows5557⟩ 5557 = List.replicate 5557 ("a", "a") := by
  unfold iter_id_ranges
  rw [count_lines_rows5557]
  have h1 : chunk_size 5557 5557 = 1 := by decide
  rw [h1]
  show iterLoop 1 rows5557 none 0 none = _
  rw [rows5557]
  exact iterLoop_chunk1_replicate "a" 5557 none

/-- Probe state in which every previously submitted job has already left the
scheduler queue, and the scheduler answers two submissions with handles
`101` and `102`. -/
def denvFastFinish : DriverEnv where
  envs := fun _ => ⟨fun _ => false, fun _ => true⟩
  sbatchOut := fun s =>
    if s = 0 then "Submitted batch job 101" else "Submitted batch job 102"

/-- C4 counterexample: a run submitting two jobs (handles `101` and `102`)
in which the first job finishes before the second gate call. The returned
collection is `["102"]`: it does not contain the submitted handle `101`, and
its length 1 differs from the 2 submissions made, refuting both parts of the
claim. -/
theorem submit_subgroup_jobs_drops_pruned_counterexample :
    submit_subgroup_jobs denvFastFinish ⟨"id", rows5557⟩ 5557 180 1 =
      some (["102"], ["101", "102"]) ∧
    "101" ∈ (["101", "102"] : List String) ∧
    "101" ∉ (["102"] : List String) ∧
    (["102"] : List String).length ≠ (["101", "102"] : List String).length := by
  refine ⟨?_, by decide, by decide, by decide⟩
  unfold submit_subgroup_jobs
  rw [iter_id_ranges_rows5557]
  have hsplit : List.replicate 5557 (("a" : String), ("a" : String)) =
      List.replicate 5555 ("a", "a") ++ List.replicate 2 ("a", "a") := by
    rw [← List.replicate_add]
  rw [hsplit, List.enumFrom_append]
  have hpre : ∀ pr ∈ List.enumFrom 1 (List.replicate 5555 (("a" : String), "a")),
      pr.1 < 5556 := by
    intro pr hpr
    obtain ⟨i, x⟩ := pr
    have hlt := (List.mem_enumFrom hpr).2.1
    simp only [List.length_replicate] at hlt
    simpa using hlt
  rw [submitLoop_skip denvFastFinish 180 1 _ _ 0 0 [] [] hpre]
  simp only [List.length_replicate]
  decide

theorem limitJobsLoop_sublist (envs : Nat → Env) (m : Nat) :
    ∀ (fuel i : Nat) (q q2 : List String) (i2 : Nat),
      limitJobsLoop envs m i fuel q = some (q2, i2) → q2.Sublist q := by
  intro fuel
  induction fuel with
  | zero => intro i q q2 i2 h; cases h
  | succ fuel ih =>
      intro i q q2 i2 h
      rw [limitJobsLoop_succ] at h
      cases hr : limit_jobs_round (envs i) q m with
      | ret s q3 =>
          rw [hr] at h
          have h2 : some (q3, i + 1) = some (q2, i2) := h
          cases h2
          rw [(limit_jobs_round_ret (envs i) q m s q2 hr).1]
          exact List.filter_sublist q
      | wait s q3 =>
          rw [hr] at h
          have hwait : q3.Sublist q := by
            unfold limit_jobs_round at hr
            by_cases h1 : (q.filter (envs i).inQueue).length < m - 150
            · rw [if_pos h1] at hr; cases hr
            · rw [if_neg h1] at hr
              by_cases h2 : (q.filter (envs i).inQueue).length < m - 20 ∧
                  (envs i).freeExceed 30 = true
              · rw [if_pos h2] at hr; cases hr
              · rw [if_neg h2] at hr
                by_cases h3 : (q.filter (envs i).inQueue).length < m ∧
                    (envs i).freeExceed 15 = true
                · rw [if_pos h3] at hr; cases hr
                · rw [if_neg h3] at hr
                  cases hr
                  exact List.filter_sublist q
          exact (ih (i + 1) q3 q2 i2 h).trans hwait

theorem submitLoop_sublist (denv : DriverEnv) (m fuel : Nat) :
    ∀ (ps : List (Nat × (String × String))) (i s : Nat) (q0 sub0 q subs : List String),
      q0.Sublist sub0 →
      submitLoop denv m fuel ps i s q0 sub0 = some (q, subs) → q.Sublist subs := by
  intro ps
  induction ps with
  | nil =>
      intro i s q0 sub0 q subs hsub h
      rw [submitLoop_nil] at h
      have h2 : q0 = q ∧ sub0 = subs := by
        cases h
        exact ⟨rfl, rfl⟩
      rw [← h2.1, ← h2.2]
      exact hsub
  | cons pr ps2 ih =>
      intro i s q0 sub0 q subs hsub h
      obtain ⟨idx, p⟩ := pr
      rw [submitLoop_cons] at h
      by_cases hidx : idx < 5556
      · rw [if_pos hidx] at h
        exact ih i s q0 sub0 q subs hsub h
      · rw [if_neg hidx] at h
        cases hg : limitJobsLoop denv.envs m i fuel q0 with
        | none => rw [hg] at h; cases h
        | some pair =>
            rw [hg] at h
            obtain ⟨q2, i2⟩ := pair
            cases hp : parseJobHandle (denv.sbatchOut s) with
            | none => rw [hp] at h; cases h
            | some job_id =>
                rw [hp] at h
                have hq2 : q2.Sublist sub0 :=
                  (limitJobsLoop_sublist denv.envs m fuel i q0 q2 i2 hg).trans hsub
                exact ih i2 (s + 1) (q2 ++ [job_id]) (sub0 ++ [job_id]) q subs
                  (hq2.append (List.Sublist.refl [job_id])) h

/-- C4 amended: the driver returns the final pruned in-flight list, not the
set of all submitted handles: the returned collection is an order-preserving
sublist of the handles submitted during the run (handles pruned as terminal
by the gate are absent), and the final count reported is the number of
still-tracked handles, which is at most the number of submissions. -/
theorem submit_subgroup_jobs_returns_pruned (denv : DriverEnv) (f : IdFile)
    (num_subgroups max_jobs_running fuel : Nat) (q subs : List String)
    (h : submit_subgroup_jobs denv f num_subgroups max_jobs_running fuel =
      some (q, subs)) :
    q.Sublist subs ∧ q.length ≤ subs.length := by
  have hs := submitLoop_sublist denv max_jobs_running fuel
    (List.enumFrom 1 (iter_id_ranges f num_subgroups)) 0 0 [] [] q subs
    (List.Sublist.refl []) h
  exact ⟨hs, hs.length_le⟩

/-- C4 amended witness: a header-only file makes an empty run whose returned
queue is a sublist of the (empty) submission list. -/
theorem submit_subgroup_jobs_returns_pruned_witness :
    ([] : List String).Sublist [] ∧
    ([] : List String).length ≤ ([] : List String).length :=
  submit_subgroup_jobs_returns_pruned denvFastFinish ⟨"id", []⟩ 1 180 1 [] [] rfl

theorem wsTokens_nil (acc : List Char) :
    wsTokens [] acc = if acc.isEmpty then [] else [String.mk acc.reverse] := rfl

theorem wsTokens_cons (c : Char) (cs acc : List Char) :
    wsTokens (c :: cs) acc =
      if c.isWhitespace then
        if acc.isEmpty then wsTokens cs [] else String.mk acc.reverse :: wsTokens cs []
      else wsTokens cs (c :: acc) := rfl

theorem wsTokens_all_whitespace :
    ∀ cs : List Char, (∀ c ∈ cs, c.isWhitespace) → wsTokens cs [] = [] := by
  intro cs
  induction cs with
  | nil => intro _; rfl
  | cons c cs2 ih =>
      intro hall
      rw [wsTokens_cons, if_pos (hall c (List.mem_cons_self _ _))]
      simp only [List.isEmpty_nil, ite_true]
      exact ih (fun d hd => hall d (List.mem_cons_of_mem _ hd))

/-- C5 counterexample: the handle parse of an empty submission response does
NOT complete — `split()` of an empty string has no final token (`[-1]` raises
`IndexError`, modeled by `none`), so the run aborts instead of recording a
bogus handle. -/
theorem parse_empty_response_counterexample : parseJobHandle "" = none := by decide

/-- C5 amended: for every submission response containing at least one
non-whitespace token the parse completes and yields the final token without
any validation (even an error message is accepted as a handle), and such a
bogus handle never matches live queue state, so the pruning step silently
treats it as already terminal; but an empty or all-whitespace response has no
token, and the parse raises (modeled `none`), aborting the run. -/
theorem parse_job_handle_unvalidated :
    (∀ s : String, wsTokens s.toList [] ≠ [] → (parseJobHandle s).isSome = true) ∧
    parseJobHandle "sbatch: error: invalid partition" = some "partition" ∧
    (∀ s : String, (∀ c ∈ s.toList, c.isWhitespace) → parseJobHandle s = none) ∧
    (∀ (env : Env) (q : List String) (handle : String),
      env.inQueue handle = false → handle ∉ q.filter env.inQueue) := by
  refine ⟨?_, by decide, ?_, ?_⟩
  · intro s h
    unfold parseJobHandle
    rw [List.getLast?_isSome]
    exact h
  · intro s hws
    unfold parseJobHandle
    rw [wsTokens_all_whitespace s.toList hws]
    rfl
  · intro env q handle h hmem
    have := (List.mem_filter.mp hmem).2
    rw [h] at this
    cases this

/-- C5 witness: a well-formed response parses to its last token; a
whitespace-only response yields no token. -/
theorem parse_job_handle_unvalidated_witness :
    (parseJobHandle "Submitted batch job 12345").isSome = true ∧
    parseJobHandle " " = none := by
  constructor
  · exact parse_job_handle_unvalidated.1 "Submitted batch job 12345" (by decide)
  · exact parse_job_handle_unvalidated.2.2.1 " " (by decide)
